import Mathlib

set_option maxRecDepth 8000

/-
Verification of the text segmentation and script generation pipeline of
src/app.py: the functions safe_clean_text, parse_pdf_to_lessons and
create_professor_script.

Strings are modelled as Lean String / List Char.  The regular expressions of
the source are modelled by explicit recursive scanners with the same
leftmost, non-overlapping match semantics as the re module.  The class \s is
modelled by the Unicode whitespace predicate that CPython uses both for
str.strip and for \s on str patterns; \d is modelled by the ASCII digits
(all concrete inputs appearing in the claims are ASCII, and the character
filter of safe_clean_text removes every non-ASCII character anyway).
-/

/-- The apostrophe character, built from its code point. -/
def apos : Char := Char.ofNat 39

/-- The apostrophe as a one character string. -/
def aposS : String := apos.toString

/-- Python regex class \d restricted to ASCII: the characters 0-9. -/
def isDig (c : Char) : Bool := decide (48 ≤ c.toNat ∧ c.toNat ≤ 57)

/-- The ranges a-z and A-Z of the character filter of safe_clean_text. -/
def isAsciiLetter (c : Char) : Bool :=
  decide ((97 ≤ c.toNat ∧ c.toNat ≤ 122) ∨ (65 ≤ c.toNat ∧ c.toNat ≤ 90))

/-- The CPython Unicode whitespace predicate, shared by str.strip and by the
regex class \s on str patterns (Py_UNICODE_ISSPACE). -/
def isPySpace (c : Char) : Bool :=
  decide ((9 ≤ c.toNat ∧ c.toNat ≤ 13) ∨ (28 ≤ c.toNat ∧ c.toNat ≤ 32) ∨
    c.toNat = 133 ∨ c.toNat = 160 ∨ c.toNat = 5760 ∨
    (8192 ≤ c.toNat ∧ c.toNat ≤ 8202) ∨ c.toNat = 8232 ∨ c.toNat = 8233 ∨
    c.toNat = 8239 ∨ c.toNat = 8287 ∨ c.toNat = 12288)

/-- The allow list of safe_clean_text step 3: the pattern
[^a-zA-Z0-9\s.,?!:;'\-] removes every character outside this set
(src/app.py line 39). -/
def allowedChar (c : Char) : Bool :=
  isAsciiLetter c || isDig c || isPySpace c ||
    c == '.' || c == ',' || c == '?' || c == '!' || c == ':' || c == ';' ||
    c == apos || c == '-'

/-- Leftmost, non-overlapping re.sub of the pattern openC \d+ closeC by the
empty string.  The fuel argument only drives termination; since every step
consumes at least one character, fuel equal to the length of the list is
always sufficient. -/
def subTokAux (openC closeC : Char) : Nat → List Char → List Char
  | 0, cs => cs
  | _ + 1, [] => []
  | fuel + 1, c :: rest =>
    if c == openC then
      match rest.takeWhile isDig, rest.dropWhile isDig with
      | _ :: _, d :: rest2 =>
        if d == closeC then subTokAux openC closeC fuel rest2
        else c :: subTokAux openC closeC fuel rest
      | _, _ => c :: subTokAux openC closeC fuel rest
    else c :: subTokAux openC closeC fuel rest

/-- Modelled from the spec: the citation removal substitution at src/app.py
line 29.  The regex literal of that line is corrupted in the source (an
unterminated string literal); per the spec, the substitution removes a
bracketed numeric citation token such as <2>: a literal <, one or more
digits, a literal >. -/
def subCite (cs : List Char) : List Char := subTokAux '<' '>' cs.length cs

/-- The re.sub of the pattern \[\d+\] by the empty string (src/app.py
line 30): removes a literal [, one or more digits, a literal ]. -/
def subBracket (cs : List Char) : List Char := subTokAux '[' ']' cs.length cs

/-- Matching of the pattern --- PAGE \d+ --- at the head of the list; on a
match, returns the remainder after the matched text. -/
def pageAt : List Char → Option (List Char)
  | '-' :: '-' :: '-' :: ' ' :: 'P' :: 'A' :: 'G' :: 'E' :: ' ' :: rest =>
    match rest.takeWhile isDig, rest.dropWhile isDig with
    | _ :: _, ' ' :: '-' :: '-' :: '-' :: rest2 => some rest2
    | _, _ => none
  | _ => none

/-- Leftmost, non-overlapping removal of --- PAGE \d+ --- banners
(src/app.py line 33).  Fuel as in subTokAux. -/
def subPageAux : Nat → List Char → List Char
  | 0, cs => cs
  | _ + 1, [] => []
  | fuel + 1, c :: rest =>
    match pageAt (c :: rest) with
    | some rest2 => subPageAux fuel rest2
    | none => c :: subPageAux fuel rest

/-- The re.sub of the pattern --- PAGE \d+ --- by the empty string. -/
def subPage (cs : List Char) : List Char := subPageAux cs.length cs

/-- True when the pattern --- PAGE \d+ --- matches at some position. -/
def hasBanner : List Char → Bool
  | [] => false
  | c :: rest => (pageAt (c :: rest)).isSome || hasBanner rest

/-- The re.sub of \s+ by a single space (src/app.py line 43).  The flag
records whether the scanner is inside a whitespace run whose single
replacement space has already been emitted. -/
def collapseAux : Bool → List Char → List Char
  | _, [] => []
  | b, c :: rest =>
    if isPySpace c then
      if b then collapseAux true rest else ' ' :: collapseAux true rest
    else c :: collapseAux false rest

/-- Collapse every whitespace run to one space. -/
def collapseWS (cs : List Char) : List Char := collapseAux false cs

/-- Python str.strip: remove leading and trailing whitespace. -/
def stripWS (cs : List Char) : List Char :=
  ((cs.dropWhile isPySpace).reverse.dropWhile isPySpace).reverse

/-- safe_clean_text of src/app.py lines 20-44, on character lists: empty
guard, citation removal, bracket removal, page banner removal, character
allow list filter, whitespace collapse and strip. -/
def safe_clean_list (cs : List Char) : List Char :=
  if cs = [] then []
  else
    let t1 := subCite cs
    let t2 := subBracket t1
    let t3 := subPage t2
    let t4 := t3.filter allowedChar
    stripWS (collapseWS t4)

/-- safe_clean_text of src/app.py lines 20-44. -/
def safe_clean_text (s : String) : String := String.mk (safe_clean_list s.data)

/-- True when the list starts with a period. -/
def dotHead : List Char → Bool
  | c :: _ => c == '.'
  | [] => false

/-- The lookahead (?=Q\d+\.) of src/app.py line 82: true when the pattern
Q\d+\. matches at the head of the list. -/
def qMarkerAt : List Char → Bool
  | [] => false
  | c :: rest =>
    c == 'Q' && !(rest.takeWhile isDig).isEmpty && dotHead (rest.dropWhile isDig)

/-- A bare numeric marker: the pattern \d+\. at the head of the list (the
permissive marker grammar mentioned by the spec, not used by the code). -/
def bareNumMarkerAt (cs : List Char) : Bool :=
  !(cs.takeWhile isDig).isEmpty && dotHead (cs.dropWhile isDig)

/-- re.split of the zero width pattern (?=Q\d+\.): the text is cut at every
position where Q\d+\. matches, the matched marker staying in the chunk that
follows the cut (src/app.py line 82). -/
def splitChunks : List Char → List (List Char)
  | [] => [[]]
  | c :: rest =>
    let r := splitChunks rest
    if qMarkerAt (c :: rest) then [] :: (c :: r.headD []) :: r.tail
    else (c :: r.headD []) :: r.tail

/-- The text up to the first marker position strictly after the start (the
first chunk produced by splitChunks). -/
def firstChunk : List Char → List Char
  | [] => []
  | c :: rest => if qMarkerAt (c :: rest) then [] else c :: firstChunk rest

/-- True when Q\d+\. matches at some position of the list. -/
def hasQMarker : List Char → Bool
  | [] => false
  | c :: rest => qMarkerAt (c :: rest) || hasQMarker rest

/-- Python str.startswith("Q") (src/app.py line 89). -/
def headIsQ : List Char → Bool
  | c :: _ => c == 'Q'
  | [] => false

/-- re.search of (Q\d+) (src/app.py line 93): the leftmost position where Q
followed by at least one digit matches, returning the greedy match. -/
def findLabel : List Char → Option (List Char)
  | [] => none
  | c :: rest =>
    if c == 'Q' && !(rest.takeWhile isDig).isEmpty then
      some (c :: rest.takeWhile isDig)
    else findLabel rest

/-- If the marker m is a prefix of cs, return the remainder of cs after it. -/
def dropMarker : List Char → List Char → Option (List Char)
  | [], cs => some cs
  | _ :: _, [] => none
  | m :: ms, c :: cs => if m == c then dropMarker ms cs else none

/-- The leftmost occurrence of the marker m in cs: returns the text before
the occurrence and the text after it. -/
def findSub (m : List Char) : List Char → Option (List Char × List Char)
  | [] => none
  | c :: rest =>
    match dropMarker m (c :: rest) with
    | some a => some ([], a)
    | none =>
      match findSub m rest with
      | some (b, a) => some (c :: b, a)
      | none => none

/-- Python str.split(m): cut at every leftmost, non-overlapping occurrence
of m.  Fuel as in subTokAux: each step consumes at least one character, so
fuel equal to the length of the list is always sufficient. -/
def splitSubAux (m : List Char) : Nat → List Char → List (List Char)
  | 0, cs => [cs]
  | fuel + 1, cs =>
    match findSub m cs with
    | none => [cs]
    | some (b, a) => b :: splitSubAux m fuel a

/-- Python str.split(m). -/
def splitSub (m cs : List Char) : List (List Char) := splitSubAux m cs.length cs

/-- The text before the first occurrence of m (the whole text when m does
not occur). -/
def beforeSub (m cs : List Char) : List Char :=
  match findSub m cs with
  | some (b, _) => b
  | none => cs

/-- The text after the first occurrence of m (empty when m does not
occur). -/
def afterSub (m cs : List Char) : List Char :=
  match findSub m cs with
  | some (_, a) => a
  | none => []

/-- The marker "Explanation:" (src/app.py line 97). -/
def explanM : List Char := ("Explanation:").data

/-- The marker "Answer:" (src/app.py line 101). -/
def answerM : List Char := ("Answer:").data

/-- The fixed connective " The answer is: " (src/app.py line 103). -/
def ansConnective : List Char := (" The answer is: ").data

/-- The marker split of src/app.py lines 97-107: split at "Explanation:"
when it occurs, taking parts 0 and 1 of the split; else split at "Answer:"
when it occurs, joining parts 0 and 1 with the fixed connective; else the
whole chunk is the question and answer part. -/
def chunkSplitParts (cs : List Char) : List Char × List Char :=
  if (findSub explanM cs).isSome then
    ((splitSub explanM cs).getD 0 [], (splitSub explanM cs).getD 1 [])
  else if (findSub answerM cs).isSome then
    ((splitSub answerM cs).getD 0 [] ++ ansConnective ++
      (splitSub answerM cs).getD 1 [], [])
  else (cs, [])

/-- The per chunk work of the loop of parse_pdf_to_lessons (src/app.py
lines 86-111): strip, marker prefix filter, label search, marker split and
cleaning.  Returns (label, display, clean_main, clean_exp), the local
values of the loop body, or none when the chunk is skipped. -/
def processChunk (chunk : List Char) : Option (String × String × String × String) :=
  let clean_chunk := stripWS chunk
  if headIsQ clean_chunk then
    let label :=
      match findLabel clean_chunk with
      | some l => String.mk l
      | none => "Question"
    let parts := chunkSplitParts clean_chunk
    some (label, String.mk clean_chunk,
      safe_clean_text (String.mk parts.1), safe_clean_text (String.mk parts.2))
  else none

/-- The output record of parse_pdf_to_lessons: the dict with keys label,
display and script (src/app.py lines 116-120). -/
structure Lesson where
  label : String
  display : String
  script : String
  deriving DecidableEq

/-- create_professor_script of src/app.py lines 56-74. -/
def create_professor_script (label main_text explanation_text : String) : String :=
  let intro := "Okay, let" ++ aposS ++ "s look at " ++ label ++ ". "
  let qa := intro ++ ("The question asks: " ++ main_text ++ ". ")
  if explanation_text ≠ "" then
    (qa ++ (" Now, let" ++ aposS ++ "s understand the details behind this. " ++
      explanation_text ++ " ")) ++ " So, that is the core concept here. "
  else qa ++ " That covers the complete answer for this question. "

/-- parse_pdf_to_lessons of src/app.py lines 76-122. -/
def parse_pdf_to_lessons (text : String) : List Lesson :=
  (splitChunks text.data).filterMap fun chunk =>
    (processChunk chunk).map fun q =>
      { label := q.1, display := q.2.1,
        script := create_professor_script q.1 q.2.2.1 q.2.2.2 }

/-- The (label, clean_main, clean_exp) triple of each emitted lesson: the
label, cleaned question and answer part and cleaned explanation part
computed by the loop of parse_pdf_to_lessons. -/
def lessonParts (text : String) : List (String × String × String) :=
  (splitChunks text.data).filterMap fun chunk =>
    (processChunk chunk).map fun q => (q.1, q.2.2.1, q.2.2.2)

/-- Every whitespace character of the list is a plain space. -/
def OnlySp (l : List Char) : Prop := ∀ c ∈ l, isPySpace c = true → c = ' '

/-- No two adjacent whitespace characters. -/
def noTwoSpaces : List Char → Prop
  | [] => True
  | [_] => True
  | a :: b :: rest =>
    ¬(isPySpace a = true ∧ isPySpace b = true) ∧ noTwoSpaces (b :: rest)

/-- The head, when present, is not whitespace. -/
def headNoSp (l : List Char) : Prop := ∀ c ∈ l.head?, isPySpace c = false

theorem splitChunks_headD (cs : List Char) :
    (splitChunks cs).headD [] = firstChunk cs := by
  induction cs with
  | nil => rfl
  | cons c rest ih =>
    rw [splitChunks, firstChunk]
    cases h : qMarkerAt (c :: rest) with
    | true => simp [h]
    | false =>
      simp only [h, Bool.false_eq_true, if_false]
      simpa using ih

theorem qMarkerAt_false_of_notQ (c : Char) (rest : List Char)
    (h : (c == 'Q') = false) : qMarkerAt (c :: rest) = false := by
  simp [qMarkerAt, h]

theorem firstChunk_cons_of_notQ (c : Char) (rest : List Char)
    (h : (c == 'Q') = false) : firstChunk (c :: rest) = c :: firstChunk rest := by
  rw [firstChunk, qMarkerAt_false_of_notQ c rest h]
  rfl

theorem takeWhile_all_append (p : Char → Bool) (ds : List Char) (x : Char)
    (w : List Char) (hall : ∀ d ∈ ds, p d = true) (hx : p x = false) :
    (ds ++ x :: w).takeWhile p = ds ∧ (ds ++ x :: w).dropWhile p = x :: w := by
  induction ds with
  | nil => simp [List.takeWhile_cons, List.dropWhile_cons, hx]
  | cons d ds ih =>
    have hd : p d = true := hall d (by simp)
    have ih2 := ih (fun e he => hall e (by simp [he]))
    simp [List.takeWhile_cons, List.dropWhile_cons, hd, ih2.1, ih2.2]

theorem isDig_not_Q (d : Char) (hd : isDig d = true) : (d == 'Q') = false := by
  cases hq : d == 'Q' with
  | false => rfl
  | true =>
    exfalso
    have : d = 'Q' := beq_iff_eq.mp hq
    rw [this] at hd
    exact absurd hd (by decide)

theorem firstChunk_digits_dot (ds w : List Char)
    (hds : ∀ d ∈ ds, isDig d = true) :
    firstChunk (ds ++ '.' :: w) = ds ++ '.' :: firstChunk w := by
  induction ds with
  | nil =>
    simpa using firstChunk_cons_of_notQ '.' w (by decide)
  | cons d ds ih =>
    have hd : (d == 'Q') = false := isDig_not_Q d (hds d (by simp))
    have ih2 := ih (fun e he => hds e (by simp [he]))
    simp only [List.cons_append]
    rw [firstChunk_cons_of_notQ d _ hd, ih2]

theorem qMarkerAt_firstChunk (c : Char) (rest : List Char)
    (h : qMarkerAt (c :: rest) = true) :
    qMarkerAt (c :: firstChunk rest) = true := by
  rw [qMarkerAt] at h
  rw [Bool.and_eq_true, Bool.and_eq_true] at h
  obtain ⟨⟨hc, hne⟩, hdot⟩ := h
  have hall : ∀ d ∈ rest.takeWhile isDig, isDig d = true :=
    fun d hd => List.mem_takeWhile_imp hd
  cases hdrop : rest.dropWhile isDig with
  | nil => rw [hdrop] at hdot; exact absurd hdot (by decide)
  | cons x w =>
    have hx : x = '.' := by
      rw [hdrop] at hdot
      exact beq_iff_eq.mp hdot
    subst hx
    have hrest : rest = rest.takeWhile isDig ++ '.' :: w := by
      conv_lhs => rw [← List.takeWhile_append_dropWhile isDig rest]
      rw [hdrop]
    rw [hrest, firstChunk_digits_dot _ w hall]
    have hta := takeWhile_all_append isDig (rest.takeWhile isDig) '.'
      (firstChunk w) hall (by decide)
    rw [qMarkerAt, hta.1, hta.2]
    rw [hrest] at hne
    rw [(takeWhile_all_append isDig (rest.takeWhile isDig) '.' w hall (by decide)).1] at hne
    simp [hc, hne, dotHead]

/-- Claim C4 (amended): only a Q prefixed numeric marker starts a new chunk;
every chunk after the first begins with the full marker Q\d+\. , so in
particular no chunk ever begins at a bare numeric token such as 12. -/
theorem c4_amended (cs ch : List Char) (h : ch ∈ (splitChunks cs).tail) :
    qMarkerAt ch = true := by
  induction cs generalizing ch with
  | nil => simp [splitChunks] at h
  | cons c rest ih =>
    rw [splitChunks] at h
    cases hq : qMarkerAt (c :: rest) with
    | false =>
      rw [hq] at h
      simp only [Bool.false_eq_true, if_false, List.tail_cons] at h
      exact ih ch h
    | true =>
      rw [hq] at h
      simp only [if_true, List.tail_cons] at h
      rcases List.mem_cons.mp h with h1 | h2
      · subst h1
        rw [splitChunks_headD]
        exact qMarkerAt_firstChunk c rest hq
      · exact ih _ h2

/-- Claim C4 counterexample: the input "ab 12. cd" contains a bare numeric
marker 12. (as the suffix starting at offset 3) yet the partition produces a
single chunk, while the Q prefixed form Q12. does start a new chunk. -/
theorem c4_counterexample :
    bareNumMarkerAt ("12. cd").data = true ∧
      splitChunks ("ab 12. cd").data = [("ab 12. cd").data] ∧
      splitChunks ("ab Q12. cd").data = [("ab ").data, ("Q12. cd").data] := by
  decide

/-- Claim C4 witness: the amended theorem applied to the input "a Q1. b". -/
theorem c4_amended_witness : qMarkerAt ("Q1. b").data = true :=
  c4_amended ("a Q1. b").data ("Q1. b").data (by decide)

theorem noMarker_splitChunks (cs : List Char) (h : hasQMarker cs = false) :
    splitChunks cs = [cs] := by
  induction cs with
  | nil => rfl
  | cons c rest ih =>
    rw [hasQMarker, Bool.or_eq_false_iff] at h
    rw [splitChunks]
    simp [h.1, ih h.2]

/-- Claim C3 (amended): on input with zero question markers the partition is
the whole text, so the segmenter returns the empty sequence exactly when the
stripped input does not start with the letter Q; when it does start with Q,
exactly one lesson is emitted although no marker is present. -/
theorem c3_amended (s : String) (h : hasQMarker s.data = false) :
    (lessonParts s = [] ↔ headIsQ (stripWS s.data) = false) ∧
      (lessonParts s).length ≤ 1 := by
  have hs := noMarker_splitChunks s.data h
  unfold lessonParts
  rw [hs]
  cases hq : headIsQ (stripWS s.data) with
  | false => simp [processChunk, hq]
  | true => simp [processChunk, hq]

/-- Claim C3 counterexample: the input "Quality control" contains zero
question markers, yet segmentation emits a lesson, because the single chunk
starts with the letter Q. -/
theorem c3_counterexample :
    hasQMarker ("Quality control").data = false ∧
      lessonParts "Quality control" ≠ [] := by
  decide

/-- Claim C3 witness: the amended theorem applied to a marker free input
that does not start with Q. -/
theorem c3_amended_witness :
    (lessonParts "plain text, no markers" = [] ↔
        headIsQ (stripWS ("plain text, no markers").data) = false) ∧
      (lessonParts "plain text, no markers").length ≤ 1 :=
  c3_amended "plain text, no markers" (by decide)

/-- Claim C5 (amended): the code has no minimum length guard; the only
length based guarantee is that a chunk that is empty after trimming is
discarded, because it cannot start with the letter Q. -/
theorem c5_amended (s : String) (ch : List Char) (_hmem : ch ∈ splitChunks s.data)
    (hlen : (stripWS ch).length < 1) : processChunk ch = none := by
  have hnil : stripWS ch = [] := by
    cases hc : stripWS ch with
    | nil => rfl
    | cons a l => rw [hc] at hlen; simp at hlen
  simp [processChunk, hnil, headIsQ]

/-- Claim C5 counterexample: the whole input "Q" is a chunk of trimmed
length 1 and still produces a lesson, so no minimum length threshold of two
or more characters is enforced. -/
theorem c5_counterexample :
    splitChunks ("Q").data = [("Q").data] ∧ (stripWS ("Q").data).length = 1 ∧
      lessonParts "Q" ≠ [] := by
  decide

/-- Claim C5 witness: the amended theorem applied to the whitespace only
chunk of the input consisting of one space. -/
theorem c5_amended_witness : processChunk (" ").data = none :=
  c5_amended " " (" ").data (by decide) (by decide)

theorem findSub_nil (m : List Char) : findSub m [] = none := rfl

theorem dropMarker_length (m : List Char) :
    ∀ cs r : List Char, dropMarker m cs = some r →
      cs.length = m.length + r.length := by
  induction m with
  | nil =>
    intro cs r h
    simp [dropMarker] at h
    subst h
    simp
  | cons a ms ih =>
    intro cs r h
    cases cs with
    | nil => simp [dropMarker] at h
    | cons c cs2 =>
      rw [dropMarker] at h
      cases hac : a == c with
      | false => rw [hac] at h; simp at h
      | true =>
        rw [hac] at h
        simp only [if_true] at h
        have := ih cs2 r h
        simp [List.length_cons, this]
        omega

theorem findSub_shrink (m : List Char) (hm : m ≠ []) :
    ∀ cs b a : List Char, findSub m cs = some (b, a) → a.length < cs.length := by
  intro cs
  induction cs with
  | nil => intro b a h; rw [findSub_nil] at h; cases h
  | cons c rest ih =>
    intro b a h
    rw [findSub] at h
    cases hdm : dropMarker m (c :: rest) with
    | some a2 =>
      rw [hdm] at h
      injection h with h2
      injection h2 with hb ha
      subst ha
      have hlen := dropMarker_length m (c :: rest) a2 hdm
      have hmpos : 0 < m.length := by
        cases m with
        | nil => exact absurd rfl hm
        | cons x xs => simp
      omega
    | none =>
      rw [hdm] at h
      cases hfs : findSub m rest with
      | none => rw [hfs] at h; cases h
      | some ba =>
        obtain ⟨b2, a2⟩ := ba
        rw [hfs] at h
        injection h with h2
        injection h2 with hb ha
        subst ha
        have hlt := ih b2 a2 hfs
        simp only [List.length_cons]
        omega

theorem splitSubAux_getD0 (m : List Char) (fuel : Nat) (cs : List Char)
    (hf : cs.length ≤ fuel) :
    (splitSubAux m fuel cs).getD 0 [] = beforeSub m cs := by
  cases fuel with
  | zero =>
    have : cs = [] := by
      cases cs with
      | nil => rfl
      | cons x xs => simp at hf
    subst this
    simp [splitSubAux, beforeSub, findSub_nil]
  | succ n =>
    rw [splitSubAux]
    cases h : findSub m cs with
    | none => simp [beforeSub, h]
    | some ba =>
      obtain ⟨b, a⟩ := ba
      simp [beforeSub, h]

theorem chunkParts_explan (cs : List Char)
    (he : (findSub explanM cs).isSome = true) :
    chunkSplitParts cs =
      (beforeSub explanM cs, beforeSub explanM (afterSub explanM cs)) := by
  obtain ⟨ba, hba⟩ := Option.isSome_iff_exists.mp he
  obtain ⟨b, a⟩ := ba
  cases cs with
  | nil => rw [findSub_nil] at hba; cases hba
  | cons c rest =>
    unfold chunkSplitParts
    rw [if_pos he]
    unfold splitSub
    have hlen : (c :: rest).length = rest.length + 1 := by simp
    rw [hlen, splitSubAux, hba]
    have hshr := findSub_shrink explanM (by decide) (c :: rest) b a hba
    have hle : a.length ≤ rest.length := by
      simp [List.length_cons] at hshr
      omega
    rw [List.getD_cons_zero, List.getD_cons_succ]
    rw [splitSubAux_getD0 explanM rest.length a hle]
    have hb : beforeSub explanM (c :: rest) = b := by simp [beforeSub, hba]
    have hafter : afterSub explanM (c :: rest) = a := by simp [afterSub, hba]
    rw [hb, hafter]

theorem chunkParts_answer (cs : List Char)
    (hne : (findSub explanM cs).isSome = false)
    (ha : (findSub answerM cs).isSome = true) :
    chunkSplitParts cs =
      (beforeSub answerM cs ++ ansConnective ++
        beforeSub answerM (afterSub answerM cs), []) := by
  obtain ⟨ba, hba⟩ := Option.isSome_iff_exists.mp ha
  obtain ⟨b, a⟩ := ba
  cases cs with
  | nil => rw [findSub_nil] at hba; cases hba
  | cons c rest =>
    unfold chunkSplitParts
    rw [if_neg (by simp [hne]), if_pos ha]
    unfold splitSub
    have hlen : (c :: rest).length = rest.length + 1 := by simp
    rw [hlen, splitSubAux, hba]
    have hshr := findSub_shrink answerM (by decide) (c :: rest) b a hba
    have hle : a.length ≤ rest.length := by
      simp [List.length_cons] at hshr
      omega
    rw [List.getD_cons_zero, List.getD_cons_succ]
    rw [splitSubAux_getD0 answerM rest.length a hle]
    have hb : beforeSub answerM (c :: rest) = b := by simp [beforeSub, hba]
    have hafter : afterSub answerM (c :: rest) = a := by simp [afterSub, hba]
    rw [hb, hafter]

/-- Claim C6 (amended): for a chunk containing both markers the split point
is the first occurrence of "Explanation:"; the question and answer part is
everything before it (any preceding "Answer:" text included verbatim, with
no connective inserted), and the explanation part is the text after the
first occurrence but only up to its next occurrence, text after a second
"Explanation:" being dropped. -/
theorem c6_amended (cs : List Char)
    (he : (findSub explanM cs).isSome = true)
    (_ha : (findSub answerM cs).isSome = true) :
    chunkSplitParts cs =
      (beforeSub explanM cs, beforeSub explanM (afterSub explanM cs)) :=
  chunkParts_explan cs he

/-- Claim C6 counterexample: on a chunk with both markers and a repeated
"Explanation:", the explanation part produced by the code is not the whole
text after the first occurrence. -/
theorem c6_counterexample :
    (findSub explanM ("Q2. Answer: a Explanation: b Explanation: c").data).isSome = true ∧
      (findSub answerM ("Q2. Answer: a Explanation: b Explanation: c").data).isSome = true ∧
      (chunkSplitParts ("Q2. Answer: a Explanation: b Explanation: c").data).2 ≠
        afterSub explanM ("Q2. Answer: a Explanation: b Explanation: c").data := by
  decide

/-- Claim C6 witness: the amended theorem applied to a chunk holding one
"Answer:" and one "Explanation:" marker. -/
theorem c6_amended_witness :
    chunkSplitParts ("Q1. Answer: a Explanation: b").data =
      (beforeSub explanM ("Q1. Answer: a Explanation: b").data,
        beforeSub explanM (afterSub explanM ("Q1. Answer: a Explanation: b").data)) ∧
      beforeSub explanM ("Q1. Answer: a Explanation: b").data =
        ("Q1. Answer: a ").data :=
  ⟨c6_amended ("Q1. Answer: a Explanation: b").data (by decide) (by decide),
    by decide⟩

/-- Claim C7 (amended): only the first occurrence of a marker sets the
split point, and the part taken after it extends only up to the next
occurrence of the same marker: when "Explanation:" occurs the parts are
(text before the first occurrence, text strictly between the first and the
second occurrence or to the end); when it does not and "Answer:" occurs,
the question and answer part joins the text before the first "Answer:" and
the text between its first and second occurrence with the fixed connective,
and the explanation part is empty. -/
theorem c7_amended (cs : List Char) :
    ((findSub explanM cs).isSome = true →
      chunkSplitParts cs =
        (beforeSub explanM cs, beforeSub explanM (afterSub explanM cs))) ∧
      ((findSub explanM cs).isSome = false →
        (findSub answerM cs).isSome = true →
        chunkSplitParts cs =
          (beforeSub answerM cs ++ ansConnective ++
            beforeSub answerM (afterSub answerM cs), [])) :=
  ⟨chunkParts_explan cs, chunkParts_answer cs⟩

/-- Claim C7 counterexample: with a repeated "Explanation:" marker the
explanation part stops at the second occurrence instead of extending to the
end of the chunk. -/
theorem c7_counterexample :
    (findSub explanM ("Q7. x Explanation: y Explanation: z").data).isSome = true ∧
      (chunkSplitParts ("Q7. x Explanation: y Explanation: z").data).2 ≠
        afterSub explanM ("Q7. x Explanation: y Explanation: z").data := by
  decide

/-- Claim C7 witness: the amended theorem applied to a chunk with one
"Explanation:" marker and to a chunk with one "Answer:" marker. -/
theorem c7_amended_witness :
    chunkSplitParts ("Q7. u Explanation: v").data =
      (beforeSub explanM ("Q7. u Explanation: v").data,
        beforeSub explanM (afterSub explanM ("Q7. u Explanation: v").data)) ∧
      chunkSplitParts ("Q8. u Answer: v").data =
        (beforeSub answerM ("Q8. u Answer: v").data ++ ansConnective ++
          beforeSub answerM (afterSub answerM ("Q8. u Answer: v").data), []) :=
  ⟨(c7_amended ("Q7. u Explanation: v").data).1 (by decide),
    (c7_amended ("Q8. u Answer: v").data).2 (by decide) (by decide)⟩

/-- Claim C2 counterexample: on the scenario input the question and answer
parts of the two lessons are not the claimed strings, because the matched
marker text stays in the chunk that follows the cut and the code never
removes it from the part before "Answer:" or "Explanation:". -/
theorem c2_counterexample :
    (lessonParts "Intro text Q1. What is X? Answer: X is Y. Q2. What is Z? Explanation: Z means W.").map
        (fun q => q.2.1) ≠
      ["What is X? The answer is: X is Y.", "What is Z?"] := by
  decide

/-- Claim C2 (amended): on the scenario input segmentation yields exactly
two lessons, labelled Q1 and Q2; the question and answer parts keep the
leading marker text ("Q1. " and "Q2. "), the first explanation is empty and
the second is "Z means W.". -/
theorem c2_amended :
    lessonParts "Intro text Q1. What is X? Answer: X is Y. Q2. What is Z? Explanation: Z means W." =
      [("Q1", "Q1. What is X? The answer is: X is Y.", ""),
       ("Q2", "Q2. What is Z?", "Z means W.")] := by
  decide

/-- Claim C9: the scenario input of the cleaning transform: the page banner
and the bracketed citation token <2> (with its inner digit) are removed and
the whitespace is collapsed. -/
theorem c9_clean_scenario :
    safe_clean_text "--- PAGE 3 --- Some <2> text" = "Some text" := by
  decide

/-- Claim C1: evaluation of the modelled functions at the empty input named
as failing input; the source itself cannot run at all, since line 29 of
src/app.py is an unterminated string literal and the module raises
SyntaxError at import time. -/
theorem c1_total_eval :
    safe_clean_text "" = "" ∧ parse_pdf_to_lessons "" = [] := ⟨rfl, rfl⟩

theorem string_data_append (s t : String) : (s ++ t).data = s.data ++ t.data := by
  cases s
  cases t
  rfl

theorem append_right_ne_empty (s t : String) (h : t.data ≠ []) : s ++ t ≠ "" := by
  intro he
  have h2 : s.data ++ t.data = [] := by
    rw [← string_data_append, he]
  exact h (List.append_eq_nil.mp h2).2

/-- Claim C10: create_professor_script always produces the fixed template,
never empty; it ends with the no explanation closing phrase exactly when the
explanation is empty and with the explanation closing phrase otherwise. -/
theorem c10_compose_spec (label main_text explanation_text : String) :
    create_professor_script label main_text explanation_text ≠ "" ∧
      (explanation_text = "" →
        ∃ p, create_professor_script label main_text explanation_text =
          p ++ " That covers the complete answer for this question. ") ∧
      (explanation_text ≠ "" →
        ∃ p, create_professor_script label main_text explanation_text =
          p ++ " So, that is the core concept here. ") := by
  by_cases he : explanation_text = ""
  · have hred : create_professor_script label main_text explanation_text =
        ("Okay, let" ++ aposS ++ "s look at " ++ label ++ ". " ++
          ("The question asks: " ++ main_text ++ ". ")) ++
          " That covers the complete answer for this question. " := by
      simp only [create_professor_script]
      rw [if_neg (not_not_intro he)]
    exact ⟨by rw [hred]; exact append_right_ne_empty _ _ (by decide),
      fun _ => ⟨_, hred⟩, fun hne => absurd he hne⟩
  · have hred : create_professor_script label main_text explanation_text =
        (("Okay, let" ++ aposS ++ "s look at " ++ label ++ ". " ++
          ("The question asks: " ++ main_text ++ ". ")) ++
          (" Now, let" ++ aposS ++ "s understand the details behind this. " ++
            explanation_text ++ " ")) ++
          " So, that is the core concept here. " := by
      simp only [create_professor_script]
      try rw [if_pos he]
    exact ⟨by rw [hred]; exact append_right_ne_empty _ _ (by decide),
      fun h => absurd h he, fun _ => ⟨_, hred⟩⟩

/-- Claim C10 witness: the template theorem applied at the concrete inputs
(Q1, empty, empty) and (Q1, q, e). -/
theorem c10_compose_witness :
    create_professor_script "Q1" "" "" ≠ "" ∧
      (∃ p, create_professor_script "Q1" "" "" =
        p ++ " That covers the complete answer for this question. ") ∧
      ∃ p, create_professor_script "Q1" "q" "e" =
        p ++ " So, that is the core concept here. " :=
  ⟨(c10_compose_spec "Q1" "" "").1,
    (c10_compose_spec "Q1" "" "").2.1 rfl,
    (c10_compose_spec "Q1" "q" "e").2.2 (by decide)⟩

theorem subTok_id (o cl : Char) :
    ∀ (cs : List Char) (fuel : Nat), (∀ x ∈ cs, (x == o) = false) →
      subTokAux o cl fuel cs = cs := by
  intro cs
  induction cs with
  | nil =>
    intro fuel _
    cases fuel <;> rfl
  | cons c rest ih =>
    intro fuel h
    cases fuel with
    | zero => rfl
    | succ n =>
      have hc : (c == o) = false := h c (by simp)
      rw [subTokAux, if_neg (by simp [hc])]
      rw [ih n (fun x hx => h x (by simp [hx]))]

theorem subPage_id :
    ∀ (cs : List Char) (fuel : Nat), hasBanner cs = false →
      subPageAux fuel cs = cs := by
  intro cs
  induction cs with
  | nil =>
    intro fuel _
    cases fuel <;> rfl
  | cons c rest ih =>
    intro fuel h
    rw [hasBanner, Bool.or_eq_false_iff] at h
    cases fuel with
    | zero => rfl
    | succ n =>
      cases hpa : pageAt (c :: rest) with
      | some r2 =>
        exfalso
        have := h.1
        rw [hpa] at this
        simp at this
      | none =>
        rw [subPageAux, hpa, ih n h.2]

theorem mem_collapse :
    ∀ (b : Bool) (l : List Char) (c : Char), c ∈ collapseAux b l →
      c = ' ' ∨ (c ∈ l ∧ isPySpace c = false) := by
  intro b l
  induction l generalizing b with
  | nil =>
    intro c h
    simp [collapseAux] at h
  | cons a rest ih =>
    intro c h
    by_cases hsp : isPySpace a = true
    · cases b with
      | true =>
        simp only [collapseAux, hsp, if_true] at h
        rcases ih true c h with h1 | h2
        · exact Or.inl h1
        · exact Or.inr ⟨by simp [h2.1], h2.2⟩
      | false =>
        simp only [collapseAux, hsp, if_true] at h
        rcases List.mem_cons.mp h with h1 | h1
        · exact Or.inl h1
        · rcases ih true c h1 with h2 | h3
          · exact Or.inl h2
          · exact Or.inr ⟨by simp [h3.1], h3.2⟩
    · have hspf : isPySpace a = false := eq_false_of_ne_true hsp
      simp only [collapseAux, hspf, Bool.false_eq_true, if_false] at h
      rcases List.mem_cons.mp h with h1 | h1
      · subst h1
        exact Or.inr ⟨by simp, hspf⟩
      · rcases ih false c h1 with h2 | h3
        · exact Or.inl h2
        · exact Or.inr ⟨by simp [h3.1], h3.2⟩

theorem collapse_true_head :
    ∀ (l : List Char) (c : Char) (rest : List Char),
      collapseAux true l = c :: rest → isPySpace c = false := by
  intro l
  induction l with
  | nil =>
    intro c rest h
    simp [collapseAux] at h
  | cons a l2 ih =>
    intro c rest h
    by_cases hsp : isPySpace a = true
    · simp only [collapseAux, hsp, if_true] at h
      exact ih c rest h
    · have hspf : isPySpace a = false := eq_false_of_ne_true hsp
      simp only [collapseAux, hspf, Bool.false_eq_true, if_false,
        List.cons.injEq] at h
      rw [← h.1]
      exact hspf

theorem noTwoSpaces_tail (a : Char) (l : List Char)
    (h : noTwoSpaces (a :: l)) : noTwoSpaces l := by
  cases l with
  | nil => trivial
  | cons b rest => exact h.2

theorem noTwo_collapse : ∀ (l : List Char) (b : Bool),
    noTwoSpaces (collapseAux b l) := by
  intro l
  induction l with
  | nil =>
    intro b
    simp only [collapseAux]
    trivial
  | cons a rest ih =>
    intro b
    by_cases hsp : isPySpace a = true
    · cases b with
      | true =>
        simp only [collapseAux, hsp, if_true]
        exact ih true
      | false =>
        simp only [collapseAux, hsp, if_true, Bool.false_eq_true, if_false]
        cases hc : collapseAux true rest with
        | nil => trivial
        | cons c cs2 =>
          refine ⟨?_, ?_⟩
          · intro hcontra
            have := collapse_true_head rest c cs2 hc
            rw [this] at hcontra
            exact absurd hcontra.2 (by simp)
          · rw [← hc]
            exact ih true
    · have hspf : isPySpace a = false := eq_false_of_ne_true hsp
      simp only [collapseAux, hspf, Bool.false_eq_true, if_false]
      cases hc : collapseAux false rest with
      | nil => trivial
      | cons c cs2 =>
        refine ⟨?_, ?_⟩
        · intro hcontra
          rw [hspf] at hcontra
          exact absurd hcontra.1 (by simp)
        · rw [← hc]
          exact ih false

theorem noTwo_dropWhile (p : Char → Bool) :
    ∀ l : List Char, noTwoSpaces l → noTwoSpaces (l.dropWhile p) := by
  intro l
  induction l with
  | nil => intro h; simpa using h
  | cons a rest ih =>
    intro h
    rw [List.dropWhile_cons]
    by_cases hp : p a = true
    · simp only [hp, if_true]
      exact ih (noTwoSpaces_tail a rest h)
    · have hpf : p a = false := eq_false_of_ne_true hp
      simp only [hpf, Bool.false_eq_true, if_false]
      exact h

theorem noTwo_snoc :
    ∀ (xs : List Char) (x : Char), noTwoSpaces xs →
      (∀ y ∈ xs.getLast?, ¬(isPySpace y = true ∧ isPySpace x = true)) →
      noTwoSpaces (xs ++ [x]) := by
  intro xs
  induction xs with
  | nil =>
    intro x _ _
    trivial
  | cons a rest ih =>
    intro x h hlast
    cases rest with
    | nil => exact ⟨hlast a (by simp), trivial⟩
    | cons b rest2 =>
      refine ⟨h.1, ?_⟩
      refine ih x h.2 ?_
      intro y hy
      refine hlast y ?_
      rw [List.getLast?_cons_cons]
      exact hy

theorem noTwo_reverse : ∀ l : List Char, noTwoSpaces l → noTwoSpaces l.reverse := by
  intro l
  induction l with
  | nil => intro h; exact h
  | cons a rest ih =>
    intro h
    rw [List.reverse_cons]
    apply noTwo_snoc
    · exact ih (noTwoSpaces_tail a rest h)
    · intro y hy
      rw [List.getLast?_reverse] at hy
      cases rest with
      | nil => simp at hy
      | cons b rest2 =>
        have hb : b = y := by simpa using hy
        subst hb
        intro hcontra
        exact h.1 ⟨hcontra.2, hcontra.1⟩

theorem dropWhile_head_false (p : Char → Bool) :
    ∀ (l : List Char) (c : Char) (rest : List Char),
      l.dropWhile p = c :: rest → p c = false := by
  intro l
  induction l with
  | nil => intro c rest h; simp at h
  | cons a l2 ih =>
    intro c rest h
    rw [List.dropWhile_cons] at h
    by_cases hp : p a = true
    · simp only [hp, if_true] at h
      exact ih c rest h
    · have hpf : p a = false := eq_false_of_ne_true hp
      simp only [hpf, Bool.false_eq_true, if_false, List.cons.injEq] at h
      rw [← h.1]
      exact hpf

theorem head?_dropWhile_false (p : Char → Bool) (l : List Char) :
    ∀ c ∈ (l.dropWhile p).head?, p c = false := by
  intro c hc
  cases hd : l.dropWhile p with
  | nil => rw [hd] at hc; simp at hc
  | cons x xs =>
    rw [hd] at hc
    have hx : x = c := by simpa using hc
    rw [← hx]
    exact dropWhile_head_false p l x xs hd

theorem dropWhile_eq_append (p : Char → Bool) :
    ∀ l : List Char, ∃ pre, pre ++ l.dropWhile p = l := by
  intro l
  induction l with
  | nil => exact ⟨[], rfl⟩
  | cons a l2 ih =>
    by_cases hp : p a = true
    · obtain ⟨pre, hpre⟩ := ih
      refine ⟨a :: pre, ?_⟩
      rw [List.dropWhile_cons]
      simp only [hp, if_true, List.cons_append]
      rw [hpre]
    · have hpf : p a = false := eq_false_of_ne_true hp
      refine ⟨[], ?_⟩
      rw [List.dropWhile_cons]
      simp [hpf]

theorem mem_stripWS : ∀ (l : List Char) (c : Char), c ∈ stripWS l → c ∈ l := by
  intro l c h
  unfold stripWS at h
  rw [List.mem_reverse] at h
  have h2 : c ∈ (l.dropWhile isPySpace).reverse :=
    (List.dropWhile_sublist isPySpace).subset h
  rw [List.mem_reverse] at h2
  exact (List.dropWhile_sublist isPySpace).subset h2

theorem noTwo_stripWS (l : List Char) (h : noTwoSpaces l) :
    noTwoSpaces (stripWS l) := by
  unfold stripWS
  apply noTwo_reverse
  apply noTwo_dropWhile
  apply noTwo_reverse
  exact noTwo_dropWhile _ l h

theorem stripWS_head_false (l : List Char) :
    ∀ c ∈ (stripWS l).head?, isPySpace c = false := by
  intro c hc
  unfold stripWS at hc
  rw [List.head?_reverse] at hc
  rw [Option.mem_def] at hc
  obtain ⟨pre, hpre⟩ := dropWhile_eq_append isPySpace (l.dropWhile isPySpace).reverse
  have hz : (l.dropWhile isPySpace).reverse.getLast? = some c := by
    rw [← hpre, List.getLast?_append, hc]
    rfl
  rw [List.getLast?_reverse] at hz
  cases hd : l.dropWhile isPySpace with
  | nil => rw [hd] at hz; cases hz
  | cons x xs =>
    rw [hd] at hz
    have hx : x = c := by simpa using hz
    rw [← hx]
    exact dropWhile_head_false isPySpace l x xs hd

theorem stripWS_last_false (l : List Char) :
    ∀ c ∈ (stripWS l).getLast?, isPySpace c = false := by
  intro c hc
  unfold stripWS at hc
  rw [List.getLast?_reverse] at hc
  exact head?_dropWhile_false isPySpace _ c hc

theorem dropWhile_id_of_head (p : Char → Bool) (l : List Char)
    (h : ∀ c ∈ l.head?, p c = false) : l.dropWhile p = l := by
  cases l with
  | nil => rfl
  | cons a l2 =>
    have ha := h a (by simp)
    rw [List.dropWhile_cons]
    simp [ha]

theorem stripWS_id (l : List Char)
    (h1 : ∀ c ∈ l.head?, isPySpace c = false)
    (h2 : ∀ c ∈ l.getLast?, isPySpace c = false) : stripWS l = l := by
  unfold stripWS
  rw [dropWhile_id_of_head isPySpace l h1]
  rw [dropWhile_id_of_head isPySpace l.reverse
    (by simpa [List.head?_reverse] using h2)]
  exact List.reverse_reverse l

theorem collapse_id : ∀ l : List Char, OnlySp l → noTwoSpaces l →
    collapseAux false l = l ∧ (headNoSp l → collapseAux true l = l) := by
  intro l
  induction l with
  | nil => intro _ _; exact ⟨rfl, fun _ => rfl⟩
  | cons a rest ih =>
    intro ho hn
    have ho2 : OnlySp rest := fun c hc hsp => ho c (by simp [hc]) hsp
    have hn2 : noTwoSpaces rest := noTwoSpaces_tail a rest hn
    obtain ⟨ihf, iht⟩ := ih ho2 hn2
    by_cases hsp : isPySpace a = true
    · have ha : a = ' ' := ho a (by simp) hsp
      constructor
      · have hstep : collapseAux false (a :: rest) = ' ' :: collapseAux true rest := by
          simp only [collapseAux, hsp, if_true]
          rfl
        rw [hstep, ha]
        congr 1
        apply iht
        intro c hc
        cases rest with
        | nil => simp at hc
        | cons b r2 =>
          have hcb : b = c := by simpa using hc
          rw [← hcb]
          cases hspb : isPySpace b with
          | false => rfl
          | true => exact absurd ⟨hsp, hspb⟩ hn.1
      · intro hhead
        have := hhead a (by simp)
        rw [hsp] at this
        cases this
    · have hspf : isPySpace a = false := eq_false_of_ne_true hsp
      constructor
      · have hstep : collapseAux false (a :: rest) = a :: collapseAux false rest := by
          simp only [collapseAux, hspf, Bool.false_eq_true, if_false]
        rw [hstep, ihf]
      · intro _
        have hstep : collapseAux true (a :: rest) = a :: collapseAux false rest := by
          simp only [collapseAux, hspf, Bool.false_eq_true, if_false]
        rw [hstep, ihf]

theorem safe_clean_fix (cs : List Char)
    (h : hasBanner (safe_clean_list cs) = false) :
    safe_clean_list (safe_clean_list cs) = safe_clean_list cs := by
  by_cases hcs : cs = []
  · subst hcs
    rfl
  · have hdef : safe_clean_list cs =
        stripWS (collapseAux false
          ((subPage (subBracket (subCite cs))).filter allowedChar)) := by
      simp only [safe_clean_list, if_neg hcs]
      rfl
    have hmemT : ∀ c ∈ safe_clean_list cs,
        c = ' ' ∨ (allowedChar c = true ∧ isPySpace c = false) := by
      intro c hc
      rw [hdef] at hc
      have hc2 := mem_stripWS _ c hc
      rcases mem_collapse false _ c hc2 with h1 | h2
      · exact Or.inl h1
      · exact Or.inr ⟨List.of_mem_filter h2.1, h2.2⟩
    have honly : OnlySp (safe_clean_list cs) := by
      intro c hc hsp
      rcases hmemT c hc with h1 | h2
      · exact h1
      · rw [hsp] at h2
        exact absurd h2.2 (by simp)
    have hnt : noTwoSpaces (safe_clean_list cs) := by
      rw [hdef]
      exact noTwo_stripWS _ (noTwo_collapse _ false)
    have hhead : ∀ c ∈ (safe_clean_list cs).head?, isPySpace c = false := by
      rw [hdef]
      exact stripWS_head_false _
    have hlast : ∀ c ∈ (safe_clean_list cs).getLast?, isPySpace c = false := by
      rw [hdef]
      exact stripWS_last_false _
    by_cases htnil : safe_clean_list cs = []
    · rw [htnil]
      rfl
    · have h1 : subCite (safe_clean_list cs) = safe_clean_list cs := by
        show subTokAux '<' '>' (safe_clean_list cs).length (safe_clean_list cs) =
          safe_clean_list cs
        apply subTok_id
        intro x hx
        cases hbeq : x == '<' with
        | false => rfl
        | true =>
          exfalso
          have hxe : x = '<' := beq_iff_eq.mp hbeq
          subst hxe
          rcases hmemT _ hx with h1 | h2
          · exact absurd h1 (by decide)
          · exact absurd h2.1 (by decide)
      have h2 : subBracket (safe_clean_list cs) = safe_clean_list cs := by
        show subTokAux '[' ']' (safe_clean_list cs).length (safe_clean_list cs) =
          safe_clean_list cs
        apply subTok_id
        intro x hx
        cases hbeq : x == '[' with
        | false => rfl
        | true =>
          exfalso
          have hxe : x = '[' := beq_iff_eq.mp hbeq
          subst hxe
          rcases hmemT _ hx with h1 | h2
          · exact absurd h1 (by decide)
          · exact absurd h2.1 (by decide)
      have h3 : subPage (safe_clean_list cs) = safe_clean_list cs :=
        subPage_id (safe_clean_list cs) (safe_clean_list cs).length h
      have h4 : (safe_clean_list cs).filter allowedChar = safe_clean_list cs := by
        apply List.filter_eq_self.mpr
        intro a ha
        rcases hmemT a ha with h1 | h2
        · rw [h1]
          decide
        · exact h2.1
      have h5 : collapseWS (safe_clean_list cs) = safe_clean_list cs :=
        (collapse_id _ honly hnt).1
      have h6 : stripWS (safe_clean_list cs) = safe_clean_list cs :=
        stripWS_id _ hhead hlast
      obtain ⟨t, ht⟩ : ∃ t, safe_clean_list cs = t := ⟨_, rfl⟩
      rw [ht] at h1 h2 h3 h4 h5 h6 htnil ⊢
      simp only [safe_clean_list, if_neg htnil]
      rw [h1, h2, h3, h4, h5, h6]

/-- Claim C8 (amended): the cleaning transform is idempotent on every input
whose cleaned form contains no --- PAGE n --- banner; in general a second
application can differ, because the character filter (or the whitespace
collapse) can assemble a new banner that the banner removal pass, which runs
before them, never saw. -/
theorem c8_amended (s : String)
    (h : hasBanner (safe_clean_text s).data = false) :
    safe_clean_text (safe_clean_text s) = safe_clean_text s :=
  congrArg String.mk (safe_clean_fix s.data h)

/-- Claim C8 counterexample: cleaning "--- PAGE# 1 ---" removes the # and
yields "--- PAGE 1 ---", a fresh banner; the second application removes it
entirely, so applying the transform twice differs from applying it once. -/
theorem c8_counterexample :
    safe_clean_text (safe_clean_text "--- PAGE# 1 ---") ≠
      safe_clean_text "--- PAGE# 1 ---" := by
  decide

/-- Claim C8 witness: the amended idempotence applied to a banner free
input. -/
theorem c8_amended_witness :
    hasBanner (safe_clean_text "ab  cd").data = false ∧
      safe_clean_text (safe_clean_text "ab  cd") = safe_clean_text "ab  cd" :=
  ⟨by decide, c8_amended "ab  cd" (by decide)⟩
